import Mathlib

/-!
Verification of the conversation context budget manager
(`nexus_agent/storage/context_manager.py`, class `ContextManager`).

The manager counts tokens of chat messages and compresses a conversation
history to fit a token budget.  Messages are Python dicts with string keys
and heterogeneous values; we model the value types the counting code
distinguishes (`str`, `dict`, and everything else) with `PyVal`.  The
tokenizer (`tiktoken` in the source) is an external collaborator; we model
it as a parameter `Encoding` carrying an arbitrary deterministic
`encode : String → List Nat`, exactly the interface the source consumes
(`len(self.encoding.encode(text))`).
-/

namespace ContextMgr

/-- A Python value that can occur as the value of a message field.
The counting code only distinguishes `str`, `dict` and "anything else";
`int` and `none` stand for the non-`str`, non-`dict` cases
(numbers, `None`, booleans, lists, ...).  Metadata dicts are modelled as
string-to-string association lists (their internal shape is irrelevant to
the manager: they are only ever passed through `str(...)`). -/
inductive PyVal where
  | str (s : String)
  | int (n : Int)
  | dict (d : List (String × String))
  | none
deriving DecidableEq, Repr

/-- A message: a Python dict, i.e. an insertion-ordered association list of
string keys to values. -/
abbrev Message := List (String × PyVal)

/-- `m.get(k)` of a Python dict: the value at the first matching key,
`None` when absent. -/
def pyGet (m : Message) (k : String) : PyVal :=
  match m.find? (fun kv => kv.1 == k) with
  | Option.some kv => kv.2
  | Option.none => PyVal.none

/-- Python single-quote character, written via its code point. -/
def sq : String := String.singleton (Char.ofNat 39)

/-- Models Python `str(...)` applied to a metadata dict:
`\x7b'k1': 'v1', 'k2': 'v2'\x7d`. -/
def pyStrDict (d : List (String × String)) : String :=
  "\x7b" ++
    String.intercalate ", "
      (d.map fun kv => sq ++ kv.1 ++ sq ++ ": " ++ sq ++ kv.2 ++ sq) ++
  "\x7d"

/-- Models Python `str(...)` on any `PyVal` (used only by the
spec-side "stringify everything" counting variant, for comparison). -/
def pyStr : PyVal → String
  | PyVal.str s => s
  | PyVal.int n => toString n
  | PyVal.dict d => pyStrDict d
  | PyVal.none => "None"

/-- The tokenizer collaborator (`self.encoding` in the source, a `tiktoken`
encoding): any deterministic `encode` from text to a token-id sequence. -/
structure Encoding where
  encode : String → List Nat

/-- `ContextManager.count_tokens`: `len(self.encoding.encode(text))`. -/
def count_tokens (e : Encoding) (text : String) : Nat :=
  (e.encode text).length

/-- The per-field contribution inside `count_messages_tokens`:
`str` values are tokenized directly, `dict` values are tokenized after
`str(...)`, every other value type adds nothing (the `for key, value`
loop has no `else` branch). -/
def field_tokens (e : Encoding) (value : PyVal) : Nat :=
  match value with
  | PyVal.str s => count_tokens e s
  | PyVal.dict d => count_tokens e (pyStrDict d)
  | _ => 0

/-- The per-message total inside `count_messages_tokens`: a fixed overhead
of 4 plus the field contributions. -/
def message_tokens (e : Encoding) (message : Message) : Nat :=
  4 + (message.map (fun kv => field_tokens e kv.2)).sum

/-- `ContextManager.count_messages_tokens`: per-message totals plus a
trailing reply-prefix overhead of 3. -/
def count_messages_tokens (e : Encoding) (messages : List Message) : Nat :=
  (messages.map (message_tokens e)).sum + 3

/-- `ContextManager.check_token_budget` with an explicit budget
(the `max_tokens=None` fallback to `config.max_context_tokens` is resolved
by the caller): returns `(is_over_budget, current_tokens)`. -/
def check_token_budget (e : Encoding) (messages : List Message)
    (max_tokens : Nat) : Bool × Nat :=
  let current_tokens := count_messages_tokens e messages
  (decide (current_tokens > max_tokens), current_tokens)

/-- The loop of `_keep_recent_messages`: walk the reversed history,
prepend each message to `result` while the running count stays within
budget, stop at the first message that would exceed it. -/
def keepRecentLoop (e : Encoding) (max_tokens : Nat) :
    List Message → List Message → List Message
  | [], result => result
  | message :: rest, result =>
    let temp := message :: result
    if count_messages_tokens e temp ≤ max_tokens then
      keepRecentLoop e max_tokens rest temp
    else
      result

/-- `ContextManager._keep_recent_messages`. -/
def keep_recent_messages (e : Encoding) (messages : List Message)
    (max_tokens : Nat) : List Message :=
  keepRecentLoop e max_tokens messages.reverse []

/-- `system_messages` local of `_generate_summary`:
`[m for m in messages if m.get("role") == "system"]`. -/
def system_messages_of (messages : List Message) : List Message :=
  messages.filter (fun m => pyGet m "role" == PyVal.str "system")

/-- `recent_messages` local of `_generate_summary`:
`messages[-10:] if len(messages) > 10 else messages`. -/
def recent_messages_of (messages : List Message) : List Message :=
  if messages.length > 10 then messages.drop (messages.length - 10)
  else messages

/-- `ContextManager._generate_summary`: system messages of the input,
followed by its last 10 messages; collapsed to the last 5 of that
concatenation when it is over budget. -/
def generate_summary (e : Encoding) (messages : List Message)
    (max_tokens : Nat) : List Message :=
  let result := system_messages_of messages ++ recent_messages_of messages
  if (check_token_budget e result max_tokens).1 then
    result.drop (result.length - 5)
  else
    result

/-- `ContextManager.compress_context` with an explicit budget: return the
input unchanged when within budget; otherwise keep the recent suffix
(stage 2), and when that is still over budget apply `_generate_summary`
to it (stage 3). -/
def compress_context (e : Encoding) (messages : List Message)
    (max_tokens : Nat) : List Message :=
  if (check_token_budget e messages max_tokens).1 then
    let compressed := keep_recent_messages e messages max_tokens
    if (check_token_budget e compressed max_tokens).1 then
      generate_summary e compressed max_tokens
    else
      compressed
  else
    messages

/-!
Raising semantics.  The only operation in the manager that can raise on
malformed message fields is the tokenizer: `tiktoken`'s `encode` raises a
`TypeError` on non-string input.  The `E`-suffixed functions re-embed the
same code in an `Except` monad in which calling the tokenizer on a
non-string value is an error, so that "never raises" becomes "always
returns `Except.ok`".
-/

/-- The tokenizer call with raising semantics: `encode` accepts only
strings and raises a `TypeError` otherwise. -/
def encodeE (e : Encoding) (v : PyVal) : Except String Nat :=
  match v with
  | PyVal.str s => Except.ok (count_tokens e s)
  | _ => Except.error "TypeError: expected a string"

/-- Per-field counting with raising semantics, mirroring the
`isinstance` guards of the source: tokenize `str` values directly,
tokenize the `str(...)` of `dict` values, skip everything else. -/
def field_tokensE (e : Encoding) (value : PyVal) : Except String Nat :=
  match value with
  | PyVal.str s => encodeE e (PyVal.str s)
  | PyVal.dict d => encodeE e (PyVal.str (pyStrDict d))
  | _ => Except.ok 0

/-- The inner `for key, value in message.items()` loop with raising
semantics, accumulating onto `acc`. -/
def message_tokensE (e : Encoding) :
    List (String × PyVal) → Nat → Except String Nat
  | [], acc => Except.ok acc
  | kv :: rest, acc => do
    let t ← field_tokensE e kv.2
    message_tokensE e rest (acc + t)

/-- The outer `for message in messages` loop with raising semantics. -/
def messagesLoopE (e : Encoding) : List Message → Nat → Except String Nat
  | [], acc => Except.ok acc
  | m :: rest, acc => do
    let per_message ← message_tokensE e m 4
    messagesLoopE e rest (acc + per_message)

/-- `count_messages_tokens` with raising semantics. -/
def count_messages_tokensE (e : Encoding) (messages : List Message) :
    Except String Nat := do
  let total ← messagesLoopE e messages 0
  pure (total + 3)

/-- `check_token_budget` with raising semantics. -/
def check_token_budgetE (e : Encoding) (messages : List Message)
    (max_tokens : Nat) : Except String (Bool × Nat) := do
  let current_tokens ← count_messages_tokensE e messages
  pure (decide (current_tokens > max_tokens), current_tokens)

/-- The `_keep_recent_messages` loop with raising semantics. -/
def keepRecentLoopE (e : Encoding) (max_tokens : Nat) :
    List Message → List Message → Except String (List Message)
  | [], result => Except.ok result
  | message :: rest, result => do
    let temp := message :: result
    let tokens ← count_messages_tokensE e temp
    if tokens ≤ max_tokens then
      keepRecentLoopE e max_tokens rest temp
    else
      pure result

/-- `_keep_recent_messages` with raising semantics. -/
def keep_recent_messagesE (e : Encoding) (messages : List Message)
    (max_tokens : Nat) : Except String (List Message) :=
  keepRecentLoopE e max_tokens messages.reverse []

/-- `_generate_summary` with raising semantics. -/
def generate_summaryE (e : Encoding) (messages : List Message)
    (max_tokens : Nat) : Except String (List Message) := do
  let result := system_messages_of messages ++ recent_messages_of messages
  let checked ← check_token_budgetE e result max_tokens
  if checked.1 then
    pure (result.drop (result.length - 5))
  else
    pure result

/-- `compress_context` with raising semantics. -/
def compress_contextE (e : Encoding) (messages : List Message)
    (max_tokens : Nat) : Except String (List Message) := do
  let checked ← check_token_budgetE e messages max_tokens
  if checked.1 then
    let compressed ← keep_recent_messagesE e messages max_tokens
    let checked2 ← check_token_budgetE e compressed max_tokens
    if checked2.1 then
      generate_summaryE e compressed max_tokens
    else
      pure compressed
  else
    pure messages

/-!
Spec-side comparison definitions.  These follow the words of the
specification, not the source, and exist only to be compared with the
source-derived definitions above.
-/

/-- Modelled from the spec: the counting the spec describes, in which
"the implementation must stringify any non-string field before counting",
so every field contributes the token count of its string form. -/
def field_tokens_claimed (e : Encoding) (value : PyVal) : Nat :=
  match value with
  | PyVal.str s => count_tokens e s
  | v => count_tokens e (pyStr v)

/-- Modelled from the spec: `count_messages_tokens` as the spec describes
it, with every non-string field stringified and counted. -/
def count_messages_tokens_claimed (e : Encoding) (messages : List Message) :
    Nat :=
  (messages.map
    (fun m => 4 + (m.map (fun kv => field_tokens_claimed e kv.2)).sum)).sum + 3

/-- Modelled from the spec: the stage-3 result the spec describes —
all system-role messages followed by the 10 most recent non-system
messages of the history, each once. -/
def summary_claimed (messages : List Message) : List Message :=
  let non_system :=
    messages.filter (fun m => !(pyGet m "role" == PyVal.str "system"))
  system_messages_of messages ++
    non_system.drop (non_system.length - 10)

/-!  Basic arithmetic facts about the token count.  -/

theorem count_messages_tokens_nil (e : Encoding) :
    count_messages_tokens e [] = 3 := rfl

theorem count_messages_tokens_cons (e : Encoding) (m : Message)
    (ms : List Message) :
    count_messages_tokens e (m :: ms) =
      message_tokens e m + count_messages_tokens e ms := by
  simp [count_messages_tokens, add_assoc]

theorem message_tokens_ge_four (e : Encoding) (m : Message) :
    4 ≤ message_tokens e m :=
  Nat.le_add_right 4 _

theorem count_messages_tokens_ge_three (e : Encoding) (ms : List Message) :
    3 ≤ count_messages_tokens e ms :=
  Nat.le_add_left 3 _

theorem count_messages_tokens_append (e : Encoding) (xs ys : List Message) :
    count_messages_tokens e (xs ++ ys) =
      (xs.map (message_tokens e)).sum + count_messages_tokens e ys := by
  simp [count_messages_tokens, add_assoc]

theorem count_messages_tokens_suffix_le (e : Encoding) (xs ys : List Message) :
    count_messages_tokens e ys ≤ count_messages_tokens e (xs ++ ys) := by
  rw [count_messages_tokens_append]
  exact Nat.le_add_left _ _

theorem count_messages_tokens_lt_cons (e : Encoding) (m : Message)
    (ms : List Message) :
    count_messages_tokens e ms < count_messages_tokens e (m :: ms) := by
  rw [count_messages_tokens_cons]
  have h4 := message_tokens_ge_four e m
  omega

/-!  The stage-2 loop invariant.  -/

/-- Invariant of the `_keep_recent_messages` loop: the processed part of
the reversed history splits as an accepted prefix `l1` (all of which ends
up, re-reversed, in front of `acc`) and an untouched remainder `l2`; the
result fits the budget unless nothing was accepted, and the first
remaining message would push the count over budget. -/
theorem keepRecentLoop_spec (e : Encoding) (B : Nat) :
    ∀ (l acc : List Message), ∃ l1 l2 : List Message,
      l = l1 ++ l2 ∧
      keepRecentLoop e B l acc = l1.reverse ++ acc ∧
      ((l1 = [] ∧ keepRecentLoop e B l acc = acc) ∨
        count_messages_tokens e (keepRecentLoop e B l acc) ≤ B) ∧
      ∀ m l2t, l2 = m :: l2t →
        B < count_messages_tokens e (m :: keepRecentLoop e B l acc) := by
  intro l
  induction l with
  | nil =>
    intro acc
    exact ⟨[], [], rfl, by simp [keepRecentLoop], Or.inl ⟨rfl, rfl⟩,
      by intro m l2t h; cases h⟩
  | cons m rest ih =>
    intro acc
    by_cases h : count_messages_tokens e (m :: acc) ≤ B
    · have hstep : keepRecentLoop e B (m :: rest) acc =
          keepRecentLoop e B rest (m :: acc) := by
        simp [keepRecentLoop, h]
      obtain ⟨l1, l2, hl, hr, hb, hf⟩ := ih (m :: acc)
      refine ⟨m :: l1, l2, by rw [hl]; rfl, ?_, ?_, ?_⟩
      · rw [hstep, hr]
        simp
      · right
        rw [hstep]
        rcases hb with ⟨_, heq⟩ | hle
        · rw [heq]; exact h
        · exact hle
      · intro m2 l2t heq
        rw [hstep]
        exact hf m2 l2t heq
    · have hstep : keepRecentLoop e B (m :: rest) acc = acc := by
        simp [keepRecentLoop, h]
      refine ⟨[], m :: rest, rfl, by rw [hstep]; rfl,
        Or.inl ⟨rfl, hstep⟩, ?_⟩
      intro m2 l2t heq
      have hm : m2 = m := by
        cases heq; rfl
      rw [hstep, hm]
      omega

/-- `_keep_recent_messages` splits the history: a dropped prefix followed
by the kept suffix; the kept suffix fits the budget unless empty, and the
newest dropped message would push it over budget. -/
theorem keep_recent_messages_spec (e : Encoding) (ms : List Message)
    (B : Nat) : ∃ dropped : List Message,
      ms = dropped ++ keep_recent_messages e ms B ∧
      (keep_recent_messages e ms B = [] ∨
        count_messages_tokens e (keep_recent_messages e ms B) ≤ B) ∧
      ∀ m l2t, dropped.reverse = m :: l2t →
        B < count_messages_tokens e (m :: keep_recent_messages e ms B) := by
  obtain ⟨l1, l2, hl, hr, hb, hf⟩ := keepRecentLoop_spec e B ms.reverse []
  have hres : keep_recent_messages e ms B = l1.reverse := by
    rw [keep_recent_messages, hr, List.append_nil]
  refine ⟨l2.reverse, ?_, ?_, ?_⟩
  · rw [hres]
    have := congrArg List.reverse hl
    simpa using this
  · rcases hb with ⟨_, heq⟩ | hle
    · left; rw [keep_recent_messages, heq]
    · right; rw [keep_recent_messages]; exact hle
  · intro m l2t heq
    rw [List.reverse_reverse] at heq
    have := hf m l2t heq
    rw [keep_recent_messages]
    exact this

/-- The stage-2 result is a contiguous suffix of the input. -/
theorem keep_recent_messages_suffix (e : Encoding) (ms : List Message)
    (B : Nat) : keep_recent_messages e ms B <:+ ms := by
  obtain ⟨dropped, hms, _, _⟩ := keep_recent_messages_spec e ms B
  exact ⟨dropped, hms.symm⟩

/-- The stage-2 result is empty or within budget; contrapositively, a
stage-2 result that is still over budget is the empty list. -/
theorem keep_recent_messages_fits_or_nil (e : Encoding) (ms : List Message)
    (B : Nat) : keep_recent_messages e ms B = [] ∨
      count_messages_tokens e (keep_recent_messages e ms B) ≤ B := by
  obtain ⟨_, _, hb, _⟩ := keep_recent_messages_spec e ms B
  exact hb

/-- Maximality of the stage-2 suffix: every suffix of the input that fits
the budget is a suffix of the stage-2 result. -/
theorem keep_recent_messages_max (e : Encoding) (ms : List Message)
    (B : Nat) : ∀ s, s <:+ ms →
      count_messages_tokens e s ≤ B →
      s <:+ keep_recent_messages e ms B := by
  obtain ⟨dropped, hms, _, hf⟩ := keep_recent_messages_spec e ms B
  intro s hs hcount
  have hr : keep_recent_messages e ms B <:+ ms := ⟨dropped, hms.symm⟩
  rcases List.suffix_or_suffix_of_suffix hs hr with hsr | hrs
  · exact hsr
  · obtain ⟨w, hw⟩ := hrs
    rcases List.eq_nil_or_concat w with hnil | ⟨w2, m0, hcat⟩
    · rw [hnil] at hw
      rw [← hw]
      simp
    · exfalso
      obtain ⟨u, hu⟩ := hs
      have huw : u ++ w = dropped := by
        have h1 : (u ++ w) ++ keep_recent_messages e ms B =
            dropped ++ keep_recent_messages e ms B := by
          rw [List.append_assoc, hw, hu]
          exact hms
        exact List.append_inj_left' h1 rfl
      have hdr : dropped.reverse = m0 :: (w2.reverse ++ u.reverse) := by
        rw [← huw, hcat]
        simp [List.concat_eq_append]
      have hover := hf m0 _ hdr
      have hsub : count_messages_tokens e
          (m0 :: keep_recent_messages e ms B) ≤
          count_messages_tokens e s := by
        have hs2 : w2 ++ (m0 :: keep_recent_messages e ms B) = s := by
          rw [← hw, hcat]
          simp [List.concat_eq_append]
        rw [← hs2]
        exact count_messages_tokens_suffix_le e w2 _
      omega

/-- When the whole history fits the budget, stage 2 keeps all of it. -/
theorem keep_recent_messages_of_fits (e : Encoding) (ms : List Message)
    (B : Nat) (h : count_messages_tokens e ms ≤ B) :
    keep_recent_messages e ms B = ms := by
  have hmax := keep_recent_messages_max e ms B ms List.suffix_rfl h
  have hsuf := keep_recent_messages_suffix e ms B
  exact hsuf.eq_of_length (Nat.le_antisymm hsuf.length_le hmax.length_le)

/-- Stage 3 on an empty candidate returns the empty list. -/
theorem generate_summary_nil (e : Encoding) (B : Nat) :
    generate_summary e [] B = [] := by
  simp [generate_summary, system_messages_of, recent_messages_of,
    check_token_budget]

/-- Case analysis of `compress_context`: the result is the input (within
budget), the stage-2 suffix, or — exactly when the stage-2 suffix is empty
and the budget is below the constant overhead 3 — the empty list. -/
theorem compress_context_cases (e : Encoding) (ms : List Message) (B : Nat) :
    compress_context e ms B = ms ∨
    compress_context e ms B = keep_recent_messages e ms B ∨
    (compress_context e ms B = [] ∧ keep_recent_messages e ms B = [] ∧
      B < 3) := by
  by_cases h1 : count_messages_tokens e ms > B
  · by_cases h2 :
        count_messages_tokens e (keep_recent_messages e ms B) > B
    · right; right
      have hnil : keep_recent_messages e ms B = [] := by
        rcases keep_recent_messages_fits_or_nil e ms B with hn | hle
        · exact hn
        · omega
      have hB : B < 3 := by
        rw [hnil, count_messages_tokens_nil] at h2
        exact h2
      refine ⟨?_, hnil, hB⟩
      have : compress_context e ms B =
          generate_summary e (keep_recent_messages e ms B) B := by
        simp [compress_context, check_token_budget, h1, h2]
      rw [this, hnil, generate_summary_nil]
    · right; left
      simp [compress_context, check_token_budget, h1, h2]
  · left
    simp [compress_context, check_token_budget, h1]

/-!  The raising-semantics embedding agrees with the pure one: no call
raises.  -/

theorem exceptOk_bind {α β : Type} (a : α) (f : α → Except String β) :
    (Except.ok a >>= f : Except String β) = f a := rfl

theorem exceptPure_eq_ok {α : Type} (a : α) :
    (pure a : Except String α) = Except.ok a := rfl

theorem field_tokensE_ok (e : Encoding) (v : PyVal) :
    field_tokensE e v = Except.ok (field_tokens e v) := by
  cases v <;> rfl

theorem message_tokensE_ok (e : Encoding) (l : List (String × PyVal)) :
    ∀ acc : Nat,
      message_tokensE e l acc =
        Except.ok (acc + (l.map (fun kv => field_tokens e kv.2)).sum) := by
  induction l with
  | nil => intro acc; simp [message_tokensE]
  | cons kv rest ih =>
    intro acc
    simp only [message_tokensE, field_tokensE_ok, exceptOk_bind, ih,
      List.map_cons, List.sum_cons, Nat.add_assoc]

theorem messagesLoopE_ok (e : Encoding) (l : List Message) :
    ∀ acc : Nat,
      messagesLoopE e l acc =
        Except.ok (acc + (l.map (message_tokens e)).sum) := by
  induction l with
  | nil => intro acc; simp [messagesLoopE]
  | cons m rest ih =>
    intro acc
    have hmsg : message_tokensE e m 4 = Except.ok (message_tokens e m) := by
      rw [message_tokensE_ok]
      rfl
    simp only [messagesLoopE, hmsg, exceptOk_bind, ih, List.map_cons,
      List.sum_cons, Nat.add_assoc]

theorem count_messages_tokensE_ok (e : Encoding) (ms : List Message) :
    count_messages_tokensE e ms =
      Except.ok (count_messages_tokens e ms) := by
  simp only [count_messages_tokensE, messagesLoopE_ok, exceptOk_bind,
    exceptPure_eq_ok, Nat.zero_add, count_messages_tokens]

theorem check_token_budgetE_ok (e : Encoding) (ms : List Message) (B : Nat) :
    check_token_budgetE e ms B = Except.ok (check_token_budget e ms B) := by
  simp only [check_token_budgetE, count_messages_tokensE_ok, exceptOk_bind,
    exceptPure_eq_ok, check_token_budget]

theorem keepRecentLoopE_ok (e : Encoding) (B : Nat) :
    ∀ l acc : List Message,
      keepRecentLoopE e B l acc = Except.ok (keepRecentLoop e B l acc) := by
  intro l
  induction l with
  | nil => intro acc; rfl
  | cons m rest ih =>
    intro acc
    simp only [keepRecentLoopE, keepRecentLoop, count_messages_tokensE_ok,
      exceptOk_bind, exceptPure_eq_ok]
    split
    · exact ih (m :: acc)
    · rfl

theorem keep_recent_messagesE_ok (e : Encoding) (ms : List Message)
    (B : Nat) : keep_recent_messagesE e ms B =
      Except.ok (keep_recent_messages e ms B) :=
  keepRecentLoopE_ok e B ms.reverse []

theorem generate_summaryE_ok (e : Encoding) (ms : List Message) (B : Nat) :
    generate_summaryE e ms B = Except.ok (generate_summary e ms B) := by
  simp only [generate_summaryE, check_token_budgetE_ok, exceptOk_bind,
    exceptPure_eq_ok, generate_summary]
  split <;> rfl

theorem compress_contextE_ok (e : Encoding) (ms : List Message) (B : Nat) :
    compress_contextE e ms B = Except.ok (compress_context e ms B) := by
  simp only [compress_contextE, check_token_budgetE_ok,
    keep_recent_messagesE_ok, generate_summaryE_ok, exceptOk_bind,
    exceptPure_eq_ok, compress_context]
  split
  · split <;> rfl
  · rfl

/-!  Concrete instances for witnesses and counterexamples.  A
character-count tokenizer (one token id per character) instantiates the
abstract `Encoding`.  -/

/-- A concrete deterministic tokenizer: one token per character. -/
def encChar : Encoding := ⟨fun s => s.data.map Char.toNat⟩

/-- A plain user message; its field strings have 4 + 10 characters, so
`count_messages_tokens encChar [msgUser] = 4 + 14 + 3 = 21`. -/
def msgUser : Message :=
  [("role", PyVal.str "user"), ("content", PyVal.str "0123456789")]

/-- A short user message: `count_messages_tokens encChar [msgSmall] = 13`. -/
def msgSmall : Message :=
  [("role", PyVal.str "user"), ("content", PyVal.str "hi")]

/-- A system message: `message_tokens encChar msgSys = 11`. -/
def msgSys : Message :=
  [("role", PyVal.str "system"), ("content", PyVal.str "a")]

/-- A message whose `content` field holds an `int`, not a string. -/
def msgInt : Message :=
  [("role", PyVal.str "user"), ("content", PyVal.int 42)]

/-- A two-message history whose system message is also among the last 10
messages. -/
def hist2 : List Message := [msgSys, msgSmall]

/-!  The claims.  -/

/-- C1: whenever some non-empty contiguous suffix of the input fits the
budget, stage 2 (`_keep_recent_messages`) returns exactly the longest
such suffix: its result is a non-empty suffix of the input, fits the
budget, and every budget-fitting suffix of the input is a suffix of it. -/
theorem c1_keep_recent_longest_suffix (e : Encoding) (ms : List Message)
    (B : Nat)
    (h : ∃ s : List Message, s ≠ [] ∧ s <:+ ms ∧
      count_messages_tokens e s ≤ B) :
    keep_recent_messages e ms B ≠ [] ∧
    keep_recent_messages e ms B <:+ ms ∧
    count_messages_tokens e (keep_recent_messages e ms B) ≤ B ∧
    ∀ s : List Message, s <:+ ms → count_messages_tokens e s ≤ B →
      s <:+ keep_recent_messages e ms B := by
  obtain ⟨s0, hne0, hsuf0, hc0⟩ := h
  have hs0 := keep_recent_messages_max e ms B s0 hsuf0 hc0
  have hne : keep_recent_messages e ms B ≠ [] := by
    intro hnil
    rw [hnil] at hs0
    exact hne0 (List.suffix_nil.mp hs0)
  refine ⟨hne, keep_recent_messages_suffix e ms B, ?_,
    keep_recent_messages_max e ms B⟩
  rcases keep_recent_messages_fits_or_nil e ms B with hn | hle
  · exact absurd hn hne
  · exact hle

/-- Witness for C1 at a concrete input: a one-message history that fits
the budget. -/
theorem c1_witness :
    keep_recent_messages encChar [msgSmall] 100 ≠ [] ∧
    keep_recent_messages encChar [msgSmall] 100 <:+ [msgSmall] ∧
    count_messages_tokens encChar
      (keep_recent_messages encChar [msgSmall] 100) ≤ 100 ∧
    ∀ s : List Message, s <:+ [msgSmall] →
      count_messages_tokens encChar s ≤ 100 →
      s <:+ keep_recent_messages encChar [msgSmall] 100 :=
  c1_keep_recent_longest_suffix encChar [msgSmall] 100
    ⟨[msgSmall], by decide, List.suffix_rfl, by decide⟩

/-- C2: the output of `compress_context` is always a sublist
(subsequence) of its input — every retained message occurs in the input,
no more often than there, and in the input's relative order. -/
theorem c2_compress_context_sublist (e : Encoding) (ms : List Message)
    (B : Nat) : List.Sublist (compress_context e ms B) ms := by
  rcases compress_context_cases e ms B with h | h | ⟨h, _, _⟩
  · rw [h]
  · rw [h]
    exact (keep_recent_messages_suffix e ms B).sublist
  · rw [h]
    exact List.nil_sublist ms

/-- C3 counterexample: a single message over budget.  `compress_context`
returns the empty list, not (as the claim states) a sequence containing
that message. -/
theorem c3_counterexample :
    10 < count_messages_tokens encChar [msgUser] ∧
    compress_context encChar [msgUser] 10 = [] ∧
    msgUser ∉ compress_context encChar [msgUser] 10 := by decide

/-- C3 amended: for a history of exactly one message whose token count
exceeds the budget, stage 2 yields the empty suffix and
`compress_context` returns the empty list (the oversized message is
dropped, not returned best-effort); no call raises. -/
theorem c3_single_oversized (e : Encoding) (m : Message) (B : Nat)
    (h : B < count_messages_tokens e [m]) :
    keep_recent_messages e [m] B = [] ∧
    compress_context e [m] B = [] := by
  have h2 : keep_recent_messages e [m] B = [] := by
    simp [keep_recent_messages, keepRecentLoop, Nat.not_le.mpr h]
  have hover : (check_token_budget e [m] B).1 = true := by
    simpa [check_token_budget] using h
  have hcomp : compress_context e [m] B =
      if (check_token_budget e (keep_recent_messages e [m] B) B).1 then
        generate_summary e (keep_recent_messages e [m] B) B
      else keep_recent_messages e [m] B := by
    simp [compress_context, hover]
  refine ⟨h2, ?_⟩
  rw [hcomp, h2]
  split
  · exact generate_summary_nil e B
  · rfl

/-- Witness for the amended C3 at a concrete oversized message. -/
theorem c3_witness :
    keep_recent_messages encChar [msgUser] 10 = [] ∧
    compress_context encChar [msgUser] 10 = [] :=
  c3_single_oversized encChar msgUser 10 (by decide)

/-- C4 counterexample: stage 3 (`_generate_summary`) applied to a history
whose system message is among the last 10 and whose carve-out set fits
the budget.  The result keeps the system message twice (once in the
system carve-out, once in the recency window), so it is not "all system
messages followed by the 10 most recent non-system messages, each
appearing once". -/
theorem c4_counterexample :
    (check_token_budget encChar
      (system_messages_of hist2 ++ recent_messages_of hist2) 100).1
        = false ∧
    generate_summary encChar hist2 100 = [msgSys, msgSys, msgSmall] ∧
    generate_summary encChar hist2 100 ≠ summary_claimed hist2 ∧
    (generate_summary encChar hist2 100).count msgSys = 2 ∧
    hist2.count msgSys = 1 := by decide

/-- C4 amended: when its carve-out set fits the budget,
`_generate_summary` returns the system messages of its input followed by
the last 10 messages of its input (system messages included, hence
possibly duplicated); it never consults the original history.  Moreover,
within `compress_context`, stage 3 is reached only when the stage-2
candidate is empty and the budget is below the constant overhead 3, and
the final result is then the empty list. -/
theorem c4_summary_behaviour (e : Encoding) (cand ms : List Message)
    (B1 B2 : Nat)
    (hfit : count_messages_tokens e
      (system_messages_of cand ++ recent_messages_of cand) ≤ B1)
    (hreach : B2 < count_messages_tokens e (keep_recent_messages e ms B2)) :
    generate_summary e cand B1 =
      system_messages_of cand ++ recent_messages_of cand ∧
    keep_recent_messages e ms B2 = [] ∧ B2 < 3 ∧
    compress_context e ms B2 = [] := by
  have hgen : generate_summary e cand B1 =
      system_messages_of cand ++ recent_messages_of cand := by
    simp [generate_summary, check_token_budget, Nat.not_lt.mpr hfit]
  have hnil : keep_recent_messages e ms B2 = [] := by
    rcases keep_recent_messages_fits_or_nil e ms B2 with hn | hle
    · exact hn
    · omega
  have hB : B2 < 3 := by
    rw [hnil, count_messages_tokens_nil] at hreach
    exact hreach
  have hover : (check_token_budget e ms B2).1 = true := by
    have h3 := count_messages_tokens_ge_three e ms
    simp [check_token_budget]
    omega
  have hcomp : compress_context e ms B2 =
      if (check_token_budget e (keep_recent_messages e ms B2) B2).1 then
        generate_summary e (keep_recent_messages e ms B2) B2
      else keep_recent_messages e ms B2 := by
    simp [compress_context, hover]
  refine ⟨hgen, hnil, hB, ?_⟩
  rw [hcomp, hnil]
  split
  · exact generate_summary_nil e B2
  · rfl

/-- Witness for the amended C4 at concrete inputs: a fitting carve-out
for the first part, a reachable stage 3 (budget 0) for the second. -/
theorem c4_witness :
    generate_summary encChar hist2 100 =
      system_messages_of hist2 ++ recent_messages_of hist2 ∧
    keep_recent_messages encChar [msgUser] 0 = [] ∧ (0 : Nat) < 3 ∧
    compress_context encChar [msgUser] 0 = [] :=
  c4_summary_behaviour encChar hist2 [msgUser] 100 0 (by decide) (by decide)

/-- C5: a history already within budget is returned unchanged, and
compression is idempotent on it. -/
theorem c5_identity_within_budget (e : Encoding) (ms : List Message)
    (B : Nat) (h : count_messages_tokens e ms ≤ B) :
    compress_context e ms B = ms ∧
    compress_context e (compress_context e ms B) B =
      compress_context e ms B := by
  have h1 : compress_context e ms B = ms := by
    simp [compress_context, check_token_budget, Nat.not_lt.mpr h]
  refine ⟨h1, ?_⟩
  rw [h1]
  exact h1

/-- Witness for C5 at a concrete within-budget history. -/
theorem c5_witness :
    compress_context encChar [msgSmall] 100 = [msgSmall] ∧
    compress_context encChar (compress_context encChar [msgSmall] 100) 100 =
      compress_context encChar [msgSmall] 100 :=
  c5_identity_within_budget encChar [msgSmall] 100 (by decide)

/-- C6: when the stage-3 system-carve-out set is still over budget, the
stage-3 result has at most 5 messages; and `compress_context` (a total
function — termination is by construction) returns at most
`max (input length) 5` messages. -/
theorem c6_bounded (e : Encoding) (ms : List Message) (B : Nat)
    (h : B < count_messages_tokens e
      (system_messages_of ms ++ recent_messages_of ms)) :
    (generate_summary e ms B).length ≤ 5 ∧
    (compress_context e ms B).length ≤ max ms.length 5 := by
  constructor
  · have hgen : generate_summary e ms B =
        (system_messages_of ms ++ recent_messages_of ms).drop
          ((system_messages_of ms ++ recent_messages_of ms).length - 5) := by
      simp [generate_summary, check_token_budget, h]
    rw [hgen, List.length_drop]
    omega
  · rcases compress_context_cases e ms B with hc | hc | ⟨hc, _, _⟩
    · rw [hc]
      exact le_max_left _ _
    · rw [hc]
      exact le_trans (keep_recent_messages_suffix e ms B).length_le
        (le_max_left _ _)
    · rw [hc]
      exact Nat.zero_le _

/-- Witness for C6 at a concrete input whose carve-out set is over a
zero budget. -/
theorem c6_witness :
    (generate_summary encChar [msgUser] 0).length ≤ 5 ∧
    (compress_context encChar [msgUser] 0).length ≤
      max [msgUser].length 5 :=
  c6_bounded encChar [msgUser] 0 (by decide)

/-- C7: under raising semantics (where handing the tokenizer a non-string
raises), `count_messages_tokens` and `compress_context` still return
normally on every list of dict-like messages — including messages with
missing fields or non-string values — agreeing with the pure embedding. -/
theorem c7_no_throw (e : Encoding) (ms : List Message) (B : Nat) :
    count_messages_tokensE e ms =
      Except.ok (count_messages_tokens e ms) ∧
    compress_contextE e ms B = Except.ok (compress_context e ms B) :=
  ⟨count_messages_tokensE_ok e ms, compress_contextE_ok e ms B⟩

/-- C8: for a tokenizer that encodes the empty string to no tokens,
`count_tokens ""` is 0; `count_messages_tokens []` is the trailing
overhead 3; `check_token_budget [] 4000` is `(false, 3)`; and
`compress_context [] 4000` is `[]`. -/
theorem c8_empty_inputs (e : Encoding) (h : e.encode "" = []) :
    count_tokens e "" = 0 ∧
    count_messages_tokens e [] = 3 ∧
    check_token_budget e [] 4000 = (false, 3) ∧
    compress_context e [] 4000 = [] := by
  refine ⟨?_, rfl, rfl, rfl⟩
  rw [count_tokens, h]
  rfl

/-- Witness for C8 with the concrete character tokenizer. -/
theorem c8_witness :
    count_tokens encChar "" = 0 ∧
    count_messages_tokens encChar [] = 3 ∧
    check_token_budget encChar [] 4000 = (false, 3) ∧
    compress_context encChar [] 4000 = [] :=
  c8_empty_inputs encChar rfl

/-- C9 counterexample: a message whose `content` is the integer 42.  The
code silently skips it (it is neither `str` nor `dict`), so the count
differs from the spec-described "stringify every non-string field"
counting. -/
theorem c9_counterexample :
    count_messages_tokens encChar [msgInt] = 11 ∧
    count_messages_tokens_claimed encChar [msgInt] = 13 ∧
    count_messages_tokens encChar [msgInt] ≠
      count_messages_tokens_claimed encChar [msgInt] := by decide

/-- C9 amended: in `count_messages_tokens`, string fields contribute
their token count and dict fields the token count of their stringified
form, while every other field value (integers, `None`, ...) contributes
nothing — it is silently skipped rather than stringified; no type
mismatch raises. -/
theorem c9_field_contributions (e : Encoding) (k : String)
    (pre post : List (String × PyVal)) (s : String)
    (d : List (String × String)) (n : Int) :
    message_tokens e (pre ++ (k, PyVal.str s) :: post) =
      message_tokens e (pre ++ post) + count_tokens e s ∧
    message_tokens e (pre ++ (k, PyVal.dict d) :: post) =
      message_tokens e (pre ++ post) + count_tokens e (pyStrDict d) ∧
    message_tokens e (pre ++ (k, PyVal.int n) :: post) =
      message_tokens e (pre ++ post) ∧
    message_tokens e (pre ++ (k, PyVal.none) :: post) =
      message_tokens e (pre ++ post) := by
  simp only [message_tokens, field_tokens, List.map_append, List.map_cons,
    List.sum_append, List.sum_cons]
  refine ⟨?_, ?_, ?_, ?_⟩ <;> omega

/-- C10: prepending any message increases the sequence token count by at
least the per-message overhead 4 (hence strictly), and every sequence
counts at least the trailing overhead 3. -/
theorem c10_count_monotone (e : Encoding) (m : Message)
    (ms : List Message) :
    count_messages_tokens e ms + 4 ≤ count_messages_tokens e (m :: ms) ∧
    3 ≤ count_messages_tokens e ms ∧
    count_messages_tokens e ms < count_messages_tokens e (m :: ms) := by
  have h1 := count_messages_tokens_cons e m ms
  have h2 := message_tokens_ge_four e m
  have h3 := count_messages_tokens_ge_three e ms
  omega

end ContextMgr
